import Mathlib

/-!
Verification development for the bulk tag manager plugin
(`src/main.ts`, `src/verify_logic.js`).

Strings are modelled as `List Char` (sequences of Unicode code points).
JavaScript's Unicode-dependent builtins (`toLowerCase`, `toUpperCase`,
`\p{L}`/`\p{N}` character classes, `localeCompare`) are modelled by
executable Lean functions that are faithful on the fragment of Unicode
this development exercises (ASCII plus a handful of named non-ASCII
characters); each such model documents its fragment.
-/

namespace BulkTagManager

/-- Case strategy setting (`caseStrategy` in `main.ts`):
`'lowercase' | 'uppercase' | 'none'`. -/
inductive CaseStrategy where
  | lowercase
  | uppercase
  | none
deriving DecidableEq, Repr

/-- Separator strategy setting (`separatorStrategy` in `main.ts`):
`'preserve' | 'snake' | 'kebab'`. -/
inductive SepStrategy where
  | preserve
  | snake
  | kebab
deriving DecidableEq, Repr

/-- The plugin settings record (`TagLowercaseSettings` in `main.ts`). -/
structure TagSettings where
  caseStrategy : CaseStrategy
  separatorStrategy : SepStrategy
  removeSpecialChars : Bool
  applyToNestedTags : Bool
deriving DecidableEq, Repr

/-- Modelled fragment of the Unicode `\p{L}` (letter) property used by the
source regexes: ASCII letters plus the named non-ASCII letters this
development exercises.  Combining marks (category Mn, e.g. U+0307) are NOT
letters, exactly as in Unicode. -/
def isUnicodeLetter (c : Char) : Bool :=
  ('A' ≤ c ∧ c ≤ 'Z') || ('a' ≤ c ∧ c ≤ 'z') ||
    c = 'İ' || c = 'ß' || c = 'é' || c = 'É' || c = 'ΐ' || c = 'Ι' ||
    c = 'ι' || c = 'σ'

/-- Modelled fragment of the Unicode `\p{N}` (number) property: ASCII digits. -/
def isUnicodeDigit (c : Char) : Bool :=
  '0' ≤ c ∧ c ≤ '9'

/-- A character kept by the `removeSpecialChars` regex
`/[^\p{L}\p{N}\-_]/gu` of `transformSegment`, i.e. a letter, digit,
hyphen or underscore.  The same class appears (negated) in the rename
regex lookahead. -/
def isTagBodyChar (c : Char) : Bool :=
  isUnicodeLetter c || isUnicodeDigit c || c = '-' || c = '_'

/-- Unicode full lowercase mappings that differ from the identity,
restricted to the modelled fragment: the 26 ASCII capitals, `É`, and
`İ` (U+0130), whose full lowercase is `i` followed by the combining dot
above U+0307 — the mapping JavaScript's `toLowerCase` applies. -/
def lowerPairs : List (Char × List Char) :=
  [('A', ['a']), ('B', ['b']), ('C', ['c']), ('D', ['d']), ('E', ['e']),
   ('F', ['f']), ('G', ['g']), ('H', ['h']), ('I', ['i']), ('J', ['j']),
   ('K', ['k']), ('L', ['l']), ('M', ['m']), ('N', ['n']), ('O', ['o']),
   ('P', ['p']), ('Q', ['q']), ('R', ['r']), ('S', ['s']), ('T', ['t']),
   ('U', ['u']), ('V', ['v']), ('W', ['w']), ('X', ['x']), ('Y', ['y']),
   ('Z', ['z']), ('É', ['é']), ('Ι', ['ι']), ('İ', ['i', '̇'])]

/-- Unicode full uppercase mappings that differ from the identity,
restricted to the modelled fragment: the 26 ASCII smalls, `é`, `ß`
(whose full uppercase is `SS`) and `ΐ` (U+0390, whose full uppercase is
`Ι` + U+0308 + U+0301) — the mapping JavaScript's `toUpperCase` applies. -/
def upperPairs : List (Char × List Char) :=
  [('a', ['A']), ('b', ['B']), ('c', ['C']), ('d', ['D']), ('e', ['E']),
   ('f', ['F']), ('g', ['G']), ('h', ['H']), ('i', ['I']), ('j', ['J']),
   ('k', ['K']), ('l', ['L']), ('m', ['M']), ('n', ['N']), ('o', ['O']),
   ('p', ['P']), ('q', ['Q']), ('r', ['R']), ('s', ['S']), ('t', ['T']),
   ('u', ['U']), ('v', ['V']), ('w', ['W']), ('x', ['X']), ('y', ['Y']),
   ('z', ['Z']), ('é', ['É']), ('ι', ['Ι']), ('ß', ['S', 'S']),
   ('ΐ', ['Ι', '̈', '́'])]

/-- Per-code-point model of JavaScript `String.prototype.toLowerCase`
(identity outside `lowerPairs`). -/
def jsLowerChar (c : Char) : List Char :=
  (lowerPairs.lookup c).getD [c]

/-- Per-code-point model of JavaScript `String.prototype.toUpperCase`
(identity outside `upperPairs`). -/
def jsUpperChar (c : Char) : List Char :=
  (upperPairs.lookup c).getD [c]

/-- Step 1 of `transformSegment`: `s.replace(/[^\p{L}\p{N}\-_]/gu, '')`. -/
def stripSpecial (s : List Char) : List Char :=
  s.filter isTagBodyChar

/-- Per-character separator rewrite of `transformSegment`:
snake replaces every hyphen with an underscore, kebab replaces every
underscore with a hyphen, preserve changes nothing. -/
def sepChar : SepStrategy → Char → Char
  | SepStrategy.snake, c => if c = '-' then '_' else c
  | SepStrategy.kebab, c => if c = '_' then '-' else c
  | SepStrategy.preserve, c => c

/-- Step 2 of `transformSegment`: the separator strategy. -/
def applySep (st : SepStrategy) (s : List Char) : List Char :=
  s.map (sepChar st)

/-- Step 3 of `transformSegment`: the case strategy
(`toLowerCase` / `toUpperCase` / no change). -/
def applyCase : CaseStrategy → List Char → List Char
  | CaseStrategy.lowercase, s => s.flatMap jsLowerChar
  | CaseStrategy.uppercase, s => s.flatMap jsUpperChar
  | CaseStrategy.none, s => s

/-- `transformSegment` from `main.ts` (identical in `verify_logic.js`):
optional special-character stripping, then the separator strategy, then
the case strategy, in that order. -/
def transformSegment (cfg : TagSettings) (segment : List Char) : List Char :=
  applyCase cfg.caseStrategy
    (applySep cfg.separatorStrategy
      (if cfg.removeSpecialChars then stripSpecial segment else segment))

/-- All code points that a modelled case-mapping table can output. -/
def outsOf (pairs : List (Char × List Char)) : List Char :=
  pairs.flatMap Prod.snd

/-- A list maps to itself under `map` when the function fixes each member. -/
theorem map_fixed {f : Char → Char} {l : List Char} (h : ∀ c ∈ l, f c = c) :
    l.map f = l := by
  induction l with
  | nil => rfl
  | cons a t ih => simp [h a (by simp), ih (fun c hc => h c (by simp [hc]))]

/-- A list maps to itself under `flatMap` when the function sends each
member to its singleton. -/
theorem flatMap_fixed {f : Char → List Char} {l : List Char}
    (h : ∀ c ∈ l, f c = [c]) : l.flatMap f = l := by
  induction l with
  | nil => rfl
  | cons a t ih => simp [h a (by simp), ih (fun c hc => h c (by simp [hc]))]

/-- A successful association-list lookup comes from a member pair. -/
theorem mem_of_lookup_eq_some {a : Char} {r : List Char}
    {l : List (Char × List Char)} (h : List.lookup a l = some r) : (a, r) ∈ l := by
  induction l with
  | nil => simp [List.lookup] at h
  | cons p t ih =>
    obtain ⟨k, v⟩ := p
    rw [List.lookup] at h
    by_cases hk : a = k
    · subst hk; simp at h; simp [h]
    · simp [beq_eq_false_iff_ne.mpr hk] at h ⊢
      exact Or.inr (ih h)

/-- Every output code point of a table-based case map is either the input
itself or listed among the table's outputs. -/
theorem charMap_mem {pairs : List (Char × List Char)} {a c : Char}
    (h : c ∈ (List.lookup a pairs).getD [a]) :
    c = a ∨ c ∈ outsOf pairs := by
  cases hl : List.lookup a pairs with
  | none => rw [hl] at h; simp at h; exact Or.inl h
  | some r =>
    rw [hl] at h
    simp at h
    exact Or.inr (List.mem_flatMap.mpr ⟨(a, r), mem_of_lookup_eq_some hl, h⟩)

/-- A table-based case map is idempotent once every table output is
outside the table's domain. -/
theorem charMap_idem {pairs : List (Char × List Char)}
    (hstable : ∀ d ∈ outsOf pairs, List.lookup d pairs = Option.none) (a : Char) :
    ((List.lookup a pairs).getD [a]).flatMap
        (fun c => (List.lookup c pairs).getD [c]) =
      (List.lookup a pairs).getD [a] := by
  cases hl : List.lookup a pairs with
  | none => simp [hl]
  | some r =>
    simp only [hl, Option.getD_some]
    refine flatMap_fixed (fun d hd => ?_)
    have hmem : d ∈ outsOf pairs :=
      List.mem_flatMap.mpr ⟨(a, r), mem_of_lookup_eq_some hl, hd⟩
    simp [hstable d hmem]

/-- Every output of the modelled lowercase table avoids the separator,
slash and marker characters. -/
theorem lowerOuts_safe : ∀ d ∈ outsOf lowerPairs,
    d ≠ '-' ∧ d ≠ '_' ∧ d ≠ '/' ∧ d ≠ '#' := by decide

/-- Every output of the modelled uppercase table avoids the separator,
slash and marker characters. -/
theorem upperOuts_safe : ∀ d ∈ outsOf upperPairs,
    d ≠ '-' ∧ d ≠ '_' ∧ d ≠ '/' ∧ d ≠ '#' := by decide

/-- The modelled lowercase table never outputs a code point that the table
itself maps (its outputs are already lowercase). -/
theorem lowerOuts_stable : ∀ d ∈ outsOf lowerPairs,
    List.lookup d lowerPairs = Option.none := by decide

/-- The modelled uppercase table never outputs a code point that the table
itself maps (its outputs are already uppercase or marks). -/
theorem upperOuts_stable : ∀ d ∈ outsOf upperPairs,
    List.lookup d upperPairs = Option.none := by decide

/-- The separator rewrite is idempotent on each character. -/
theorem sepChar_idem (st : SepStrategy) (c : Char) :
    sepChar st (sepChar st c) = sepChar st c := by
  cases st <;> simp only [sepChar] <;> split_ifs <;> simp_all

/-- Applying a case strategy twice equals applying it once. -/
theorem applyCase_idem (cs : CaseStrategy) (s : List Char) :
    applyCase cs (applyCase cs s) = applyCase cs s := by
  cases cs with
  | lowercase =>
    show (s.flatMap jsLowerChar).flatMap jsLowerChar = s.flatMap jsLowerChar
    rw [List.flatMap_assoc]
    exact congrArg _ (funext (charMap_idem lowerOuts_stable))
  | uppercase =>
    show (s.flatMap jsUpperChar).flatMap jsUpperChar = s.flatMap jsUpperChar
    rw [List.flatMap_assoc]
    exact congrArg _ (funext (charMap_idem upperOuts_stable))
  | none => rfl

/-- A character fixed by the separator rewrite stays fixed through the
modelled case mappings. -/
theorem sepChar_fixed_of_case {cs : CaseStrategy} {st : SepStrategy} {a c : Char}
    (hc : c ∈ applyCase cs [a]) (ha : sepChar st a = a) : sepChar st c = c := by
  cases st with
  | preserve => rfl
  | snake =>
    have hne : c ≠ '-' := by
      cases cs with
      | lowercase =>
        simp only [applyCase, List.flatMap_cons, List.flatMap_nil,
          List.append_nil] at hc
        rcases charMap_mem hc with rfl | h
        · intro hcon; rw [hcon] at ha; simp [sepChar] at ha
        · exact (lowerOuts_safe c h).1
      | uppercase =>
        simp only [applyCase, List.flatMap_cons, List.flatMap_nil,
          List.append_nil] at hc
        rcases charMap_mem hc with rfl | h
        · intro hcon; rw [hcon] at ha; simp [sepChar] at ha
        · exact (upperOuts_safe c h).1
      | none =>
        simp only [applyCase, List.mem_singleton] at hc
        subst hc
        intro hcon; rw [hcon] at ha; simp [sepChar] at ha
    simp [sepChar, hne]
  | kebab =>
    have hne : c ≠ '_' := by
      cases cs with
      | lowercase =>
        simp only [applyCase, List.flatMap_cons, List.flatMap_nil,
          List.append_nil] at hc
        rcases charMap_mem hc with rfl | h
        · intro hcon; rw [hcon] at ha; simp [sepChar] at ha
        · exact (lowerOuts_safe c h).2.1
      | uppercase =>
        simp only [applyCase, List.flatMap_cons, List.flatMap_nil,
          List.append_nil] at hc
        rcases charMap_mem hc with rfl | h
        · intro hcon; rw [hcon] at ha; simp [sepChar] at ha
        · exact (upperOuts_safe c h).2.1
      | none =>
        simp only [applyCase, List.mem_singleton] at hc
        subst hc
        intro hcon; rw [hcon] at ha; simp [sepChar] at ha
    simp [sepChar, hne]

/-- Membership in `applyCase` over a list factors through one element. -/
theorem mem_applyCase {cs : CaseStrategy} {s : List Char} {c : Char}
    (h : c ∈ applyCase cs s) : ∃ a ∈ s, c ∈ applyCase cs [a] := by
  cases cs with
  | lowercase =>
    obtain ⟨a, ha, hc⟩ := List.mem_flatMap.mp h
    exact ⟨a, ha, by simpa [applyCase] using hc⟩
  | uppercase =>
    obtain ⟨a, ha, hc⟩ := List.mem_flatMap.mp h
    exact ⟨a, ha, by simpa [applyCase] using hc⟩
  | none => exact ⟨c, h, by simp [applyCase]⟩

/-- The separator rewrite is a no-op after a case strategy has been
applied to an already separator-normalised string. -/
theorem applySep_applyCase_applySep (st : SepStrategy) (cs : CaseStrategy)
    (s : List Char) :
    applySep st (applyCase cs (applySep st s)) = applyCase cs (applySep st s) := by
  refine map_fixed (fun c hc => ?_)
  obtain ⟨a, ha, hca⟩ := mem_applyCase hc
  obtain ⟨b, _, rfl⟩ := List.mem_map.mp ha
  exact sepChar_fixed_of_case hca (sepChar_idem st b)

/-- Separator-rewriting twice equals doing it once. -/
theorem applySep_idem (st : SepStrategy) (s : List Char) :
    applySep st (applySep st s) = applySep st s := by
  simp only [applySep, List.map_map]
  exact List.map_congr_left (fun c _ => sepChar_idem st c)

/-- The separator rewrite keeps kept-by-strip characters kept. -/
theorem isTagBodyChar_sepChar {c : Char} (st : SepStrategy)
    (h : isTagBodyChar c = true) : isTagBodyChar (sepChar st c) = true := by
  cases st <;> simp only [sepChar] <;> (try split_ifs) <;> first | decide | exact h

/-- Stripping is a no-op on a string whose characters were all kept by a
previous strip and then separator-rewritten. -/
theorem stripSpecial_applySep_stripSpecial (st : SepStrategy) (s : List Char) :
    stripSpecial (applySep st (stripSpecial s)) = applySep st (stripSpecial s) := by
  refine List.filter_eq_self.mpr (fun c hc => ?_)
  obtain ⟨b, hb, rfl⟩ := List.mem_map.mp hc
  exact isTagBodyChar_sepChar st (List.of_mem_filter hb)

/-- C1 (counterexample): the claim "`transformSegment` is idempotent for
every configuration and every Unicode input" fails at the concrete
configuration (lowercase, preserve, remove-special-chars on) and input
`"İ"` (U+0130): one application yields `i` followed by the combining dot
above U+0307 (the Unicode full lowercase of `İ`), and the second
application's special-character strip deletes the combining mark, so
applying twice differs from applying once. -/
theorem claim1_counterexample :
    transformSegment ⟨CaseStrategy.lowercase, SepStrategy.preserve, true, true⟩
        (transformSegment
          ⟨CaseStrategy.lowercase, SepStrategy.preserve, true, true⟩ ['İ'])
      ≠ transformSegment
          ⟨CaseStrategy.lowercase, SepStrategy.preserve, true, true⟩ ['İ'] := by
  decide

/-- C1 (amended): `transformSegment` is idempotent for every input in
every configuration whose remove-special-chars flag is off or whose case
strategy is `none`; only the combination of special-character stripping
with an active case strategy can break idempotence (when a case mapping
introduces combining marks). -/
theorem claim1_transformSegment_idem (cfg : TagSettings) (x : List Char)
    (h : cfg.removeSpecialChars = false ∨ cfg.caseStrategy = CaseStrategy.none) :
    transformSegment cfg (transformSegment cfg x) = transformSegment cfg x := by
  obtain ⟨cs, st, rs, an⟩ := cfg
  rcases h with h | h
  · simp only at h
    subst h
    simp only [transformSegment, if_false, Bool.false_eq_true]
    rw [applySep_applyCase_applySep, applyCase_idem]
  · simp only at h
    subst h
    simp only [transformSegment, applyCase]
    cases rs with
    | false => simpa using applySep_idem st x
    | true =>
      simp only [if_true]
      rw [stripSpecial_applySep_stripSpecial, applySep_idem]

/-- C1 (witness): the amended idempotence theorem applied at the concrete
configuration (lowercase, snake, remove-special-chars off) and input
`"My-Tag"`. -/
theorem claim1_witness :
    transformSegment ⟨CaseStrategy.lowercase, SepStrategy.snake, false, true⟩
        (transformSegment
          ⟨CaseStrategy.lowercase, SepStrategy.snake, false, true⟩ "My-Tag".toList)
      = transformSegment
          ⟨CaseStrategy.lowercase, SepStrategy.snake, false, true⟩ "My-Tag".toList :=
  claim1_transformSegment_idem _ _ (Or.inl rfl)

/-- Model of JavaScript `tagContent.split('/')`: splitting an empty
string yields one empty part, and every slash separates two parts. -/
def splitSlash : List Char → List (List Char)
  | [] => [[]]
  | c :: rest =>
      if c = '/' then [] :: splitSlash rest
      else
        match splitSlash rest with
        | [] => [[c]]
        | p :: ps => (c :: p) :: ps

/-- Model of JavaScript `parts.join('/')`. -/
def joinSlash : List (List Char) → List Char
  | [] => []
  | [p] => p
  | p :: q :: ps => p ++ '/' :: joinSlash (q :: ps)

/-- The indexed part map of `convertTagContent`: part 0 is always
transformed, later parts only when `applyToNestedTags` is set. -/
def convertParts (cfg : TagSettings) : Nat → List (List Char) → List (List Char)
  | _, [] => []
  | i, p :: ps =>
      (if 0 < i ∧ cfg.applyToNestedTags = false then p
       else transformSegment cfg p) :: convertParts cfg (i + 1) ps

/-- `convertTagContent` from `main.ts` (called `convertTag` in
`verify_logic.js`): split on slash, transform parts according to the
nesting setting, rejoin with slash. -/
def convertTagContent (cfg : TagSettings) (tagContent : List Char) : List Char :=
  joinSlash (convertParts cfg 0 (splitSlash tagContent))

/-- Splitting never yields an empty part list. -/
theorem splitSlash_ne_nil (l : List Char) : splitSlash l ≠ [] := by
  cases l with
  | nil => simp [splitSlash]
  | cons c rest =>
    simp only [splitSlash]
    split_ifs
    · simp
    · cases h : splitSlash rest <;> simp

/-- No part produced by splitting contains a slash. -/
theorem splitSlash_no_slash (l : List Char) :
    ∀ p ∈ splitSlash l, '/' ∉ p := by
  induction l with
  | nil => simp [splitSlash]
  | cons c rest ih =>
    intro p hp
    simp only [splitSlash] at hp
    split_ifs at hp with hc
    · rcases List.mem_cons.mp hp with rfl | h
      · simp
      · exact ih p h
    · cases hsp : splitSlash rest with
      | nil => exact absurd hsp (splitSlash_ne_nil rest)
      | cons q qs =>
        rw [hsp] at hp
        rcases List.mem_cons.mp hp with rfl | h
        · intro hmem
          rcases List.mem_cons.mp hmem with hce | hq
          · exact hc hce.symm
          · exact ih q (by simp [hsp]) hq
        · exact ih p (by simp [hsp, h])

/-- Joining undoes splitting. -/
theorem joinSlash_splitSlash (l : List Char) : joinSlash (splitSlash l) = l := by
  induction l with
  | nil => rfl
  | cons c rest ih =>
    simp only [splitSlash]
    split_ifs with hc
    · subst hc
      cases hsp : splitSlash rest with
      | nil => exact absurd hsp (splitSlash_ne_nil rest)
      | cons q qs =>
        rw [hsp] at ih
        simp [joinSlash, ih]
    · cases hsp : splitSlash rest with
      | nil => exact absurd hsp (splitSlash_ne_nil rest)
      | cons q qs =>
        rw [hsp] at ih
        cases qs with
        | nil => simpa [joinSlash] using congrArg (c :: ·) ih
        | cons q' qs' =>
          simp only [joinSlash] at ih ⊢
          simpa using congrArg (c :: ·) ih

/-- Splitting a slash-free string yields that single part. -/
theorem splitSlash_of_no_slash {p : List Char} (h : '/' ∉ p) :
    splitSlash p = [p] := by
  induction p with
  | nil => rfl
  | cons c rest ih =>
    have hc : ¬ c = '/' := fun hcc => h (by simp [hcc])
    have hr : '/' ∉ rest := fun hm => h (by simp [hm])
    simp [splitSlash, hc, ih hr]

/-- Splitting after appending a slash splits at that slash first. -/
theorem splitSlash_append_slash {p : List Char} (t : List Char) (h : '/' ∉ p) :
    splitSlash (p ++ '/' :: t) = p :: splitSlash t := by
  induction p with
  | nil => simp [splitSlash]
  | cons c rest ih =>
    have hc : ¬ c = '/' := fun hcc => h (by simp [hcc])
    have hr : '/' ∉ rest := fun hm => h (by simp [hm])
    simp [splitSlash, hc, ih hr]

/-- Splitting undoes joining for nonempty lists of slash-free parts. -/
theorem splitSlash_joinSlash : ∀ (ps : List (List Char)), ps ≠ [] →
    (∀ p ∈ ps, '/' ∉ p) → splitSlash (joinSlash ps) = ps
  | [], h, _ => absurd rfl h
  | [p], _, hs => by simp [joinSlash, splitSlash_of_no_slash (hs p (by simp))]
  | p :: q :: ps, _, hs => by
      have hp : '/' ∉ p := hs p (by simp)
      rw [joinSlash, splitSlash_append_slash _ hp,
        splitSlash_joinSlash (q :: ps) (by simp)
          (fun r hr => hs r (List.mem_cons_of_mem p hr))]

/-- Transforming the empty segment yields the empty segment. -/
theorem transformSegment_nil (cfg : TagSettings) : transformSegment cfg [] = [] := by
  obtain ⟨cs, st, rs, an⟩ := cfg
  cases rs <;> cases cs <;>
    simp [transformSegment, stripSpecial, applySep, applyCase]

/-- The separator rewrite only outputs a slash for a slash input. -/
theorem sepChar_eq_slash {st : SepStrategy} {b : Char}
    (h : sepChar st b = '/') : b = '/' := by
  cases st <;> simp only [sepChar] at h <;> (try split_ifs at h) <;> simp_all

/-- The modelled case mappings only output a slash for a slash input. -/
theorem applyCase_slash_mem {cs : CaseStrategy} {a : Char}
    (h : '/' ∈ applyCase cs [a]) : a = '/' := by
  cases cs with
  | lowercase =>
    simp only [applyCase, List.flatMap_cons, List.flatMap_nil,
      List.append_nil] at h
    rcases charMap_mem h with h' | h'
    · exact h'.symm
    · exact absurd rfl (lowerOuts_safe '/' h').2.2.1
  | uppercase =>
    simp only [applyCase, List.flatMap_cons, List.flatMap_nil,
      List.append_nil] at h
    rcases charMap_mem h with h' | h'
    · exact h'.symm
    · exact absurd rfl (upperOuts_safe '/' h').2.2.1
  | none => exact (List.mem_singleton.mp h).symm

/-- Transforming a slash-free segment keeps it slash-free. -/
theorem transformSegment_no_slash {cfg : TagSettings} {p : List Char}
    (h : '/' ∉ p) : '/' ∉ transformSegment cfg p := by
  intro hmem
  simp only [transformSegment] at hmem
  obtain ⟨a, ha, hca⟩ := mem_applyCase hmem
  have ha' : a = '/' := applyCase_slash_mem hca
  subst ha'
  obtain ⟨b, hb, hsb⟩ := List.mem_map.mp ha
  have hb' : b = '/' := sepChar_eq_slash hsb
  subst hb'
  split_ifs at hb with hrs
  · exact h (List.mem_of_mem_filter hb)
  · exact h hb

/-- `convertParts` preserves the number of parts. -/
theorem convertParts_length (cfg : TagSettings) :
    ∀ (i : Nat) (ps : List (List Char)), (convertParts cfg i ps).length = ps.length
  | _, [] => rfl
  | i, _ :: ps => by simp [convertParts, convertParts_length cfg (i + 1) ps]

/-- `convertParts` preserves slash-freeness of every part. -/
theorem convertParts_no_slash {cfg : TagSettings} :
    ∀ {i : Nat} {ps : List (List Char)}, (∀ p ∈ ps, '/' ∉ p) →
      ∀ q ∈ convertParts cfg i ps, '/' ∉ q := by
  intro i ps
  induction ps generalizing i with
  | nil => intro _ q hq; simp [convertParts] at hq
  | cons p ps ih =>
    intro hps q hq
    simp only [convertParts, List.mem_cons] at hq
    rcases hq with rfl | hq
    · split_ifs with hi
      · exact hps p (by simp)
      · exact transformSegment_no_slash (hps p (by simp))
    · exact ih (fun r hr => hps r (List.mem_cons_of_mem p hr)) q hq

/-- `convertParts` sends empty parts to empty parts, positionally. -/
theorem convertParts_getD_empty {cfg : TagSettings} :
    ∀ {i j : Nat} {ps : List (List Char)}, ps.getD i [] = [] →
      (convertParts cfg j ps).getD i [] = [] := by
  intro i j ps
  induction ps generalizing i j with
  | nil => intro _; simp [convertParts]
  | cons p ps ih =>
    intro h
    cases i with
    | zero =>
      simp only [List.getD_cons_zero] at h
      subst h
      simp only [convertParts, List.getD_cons_zero]
      split_ifs
      · rfl
      · exact transformSegment_nil cfg
    | succ i =>
      simp only [List.getD_cons_succ] at h
      simpa [convertParts] using ih h

/-- With nesting off, `convertParts` fixes every part of positive index. -/
theorem convertParts_tail_id {cfg : TagSettings}
    (hn : cfg.applyToNestedTags = false) :
    ∀ (j : Nat) (ps : List (List Char)), 0 < j → convertParts cfg j ps = ps := by
  intro j ps
  induction ps generalizing j with
  | nil => intro _; rfl
  | cons p ps ih =>
    intro hj
    simp [convertParts, hj, hn, ih (j + 1) (Nat.succ_pos j)]

/-- Joining a nonempty list of slash-free parts has one slash fewer than
parts. -/
theorem count_joinSlash : ∀ (ps : List (List Char)), ps ≠ [] →
    (∀ p ∈ ps, '/' ∉ p) → (joinSlash ps).count '/' = ps.length - 1
  | [], h, _ => absurd rfl h
  | [p], _, hs => by
      simp [joinSlash, List.count_eq_zero.mpr (hs p (by simp))]
  | p :: q :: ps, _, hs => by
      have hp : '/' ∉ p := hs p (by simp)
      have ih := count_joinSlash (q :: ps) (by simp)
        (fun r hr => hs r (List.mem_cons_of_mem p hr))
      simp only [joinSlash, List.count_append, List.count_cons,
        List.count_eq_zero.mpr hp, List.length_cons, beq_self_eq_true,
        if_true] at ih ⊢
      omega

/-- C4: for every configuration and every tag content, `convertTagContent`
preserves the number of slash-delimited segments, the number of slash
characters, and the position of every empty segment. -/
theorem claim4_convertTagContent_shape (cfg : TagSettings) (content : List Char) :
    (splitSlash (convertTagContent cfg content)).length
        = (splitSlash content).length
    ∧ (convertTagContent cfg content).count '/' = content.count '/'
    ∧ ∀ i : Nat, (splitSlash content).getD i [] = [] →
        (splitSlash (convertTagContent cfg content)).getD i [] = [] := by
  have hns : ∀ p ∈ splitSlash content, '/' ∉ p := splitSlash_no_slash content
  have hcne : convertParts cfg 0 (splitSlash content) ≠ [] := by
    intro hh
    have := convertParts_length cfg 0 (splitSlash content)
    rw [hh] at this
    exact splitSlash_ne_nil content (List.length_eq_zero.mp this.symm)
  have hcns : ∀ q ∈ convertParts cfg 0 (splitSlash content), '/' ∉ q :=
    convertParts_no_slash hns
  have key : splitSlash (convertTagContent cfg content)
      = convertParts cfg 0 (splitSlash content) :=
    splitSlash_joinSlash _ hcne hcns
  refine ⟨?_, ?_, ?_⟩
  · rw [key, convertParts_length]
  · have h1 : (convertTagContent cfg content).count '/'
        = (convertParts cfg 0 (splitSlash content)).length - 1 :=
      count_joinSlash _ hcne hcns
    have h2 : content.count '/' = (splitSlash content).length - 1 := by
      conv_lhs => rw [← joinSlash_splitSlash content]
      exact count_joinSlash _ (splitSlash_ne_nil content) hns
    rw [h1, h2, convertParts_length]
  · intro i hi
    rw [key]
    exact convertParts_getD_empty hi

/-- C4 (witness): the shape-preservation theorem applied at the concrete
configuration (lowercase, snake, remove-special-chars on) and the content
`"A//b"`, whose middle segment is empty. -/
theorem claim4_witness :
    (splitSlash (convertTagContent
          ⟨CaseStrategy.lowercase, SepStrategy.snake, true, true⟩ "A//b".toList)).length
        = (splitSlash "A//b".toList).length
    ∧ (convertTagContent
          ⟨CaseStrategy.lowercase, SepStrategy.snake, true, true⟩ "A//b".toList).count '/'
        = "A//b".toList.count '/'
    ∧ (splitSlash (convertTagContent
          ⟨CaseStrategy.lowercase, SepStrategy.snake, true, true⟩ "A//b".toList)).getD 1 []
        = [] :=
  ⟨(claim4_convertTagContent_shape _ _).1,
   (claim4_convertTagContent_shape _ _).2.1,
   (claim4_convertTagContent_shape
      ⟨CaseStrategy.lowercase, SepStrategy.snake, true, true⟩ "A//b".toList).2.2 1
     (by decide)⟩

/-- C5: with apply-to-nested off and at least two segments,
`convertTagContent` transforms segment 0 and leaves every later segment
byte-identical. -/
theorem claim5_convertTagContent_nested_off (cfg : TagSettings)
    (content p : List Char) (ps : List (List Char))
    (hn : cfg.applyToNestedTags = false)
    (hs : splitSlash content = p :: ps) (h2 : ps ≠ []) :
    splitSlash (convertTagContent cfg content)
      = transformSegment cfg p :: ps := by
  have hns : ∀ q ∈ p :: ps, '/' ∉ q := by
    rw [← hs]; exact splitSlash_no_slash content
  have hstep : convertParts cfg 0 (splitSlash content)
      = transformSegment cfg p :: ps := by
    rw [hs]
    simp only [convertParts, Nat.lt_irrefl, false_and, if_false]
    rw [convertParts_tail_id hn 1 ps Nat.one_pos]
  unfold convertTagContent
  rw [hstep]
  refine splitSlash_joinSlash _ (by simp) (fun q hq => ?_)
  rcases List.mem_cons.mp hq with rfl | hq
  · exact transformSegment_no_slash (hns p (by simp))
  · exact hns q (List.mem_cons_of_mem p hq)

/-- C5 (witness): the nested-off theorem applied at the configuration
(lowercase, preserve, no strip, nesting off) and content `"Ab/C/d"`. -/
theorem claim5_witness :
    splitSlash (convertTagContent
        ⟨CaseStrategy.lowercase, SepStrategy.preserve, false, false⟩ "Ab/C/d".toList)
      = transformSegment
          ⟨CaseStrategy.lowercase, SepStrategy.preserve, false, false⟩ "Ab".toList
        :: ["C".toList, "d".toList] :=
  claim5_convertTagContent_nested_off _ _ _ _ rfl (by decide) (by decide)

/-- Model of the whitespace class `\s` of the rename regex, on the
fragment of whitespace this development exercises (ASCII blank, tab,
newline, carriage return, vertical tab, form feed). -/
def isJsSpace (c : Char) : Bool :=
  c = ' ' || c = '\t' || c = '\n' || c = '\r' || c = '\x0b' || c = '\x0c'

/-- Model of JavaScript `String.prototype.startsWith`: the first argument
is the pattern, the second the scrutinised string. -/
def isPrefixCh : List Char → List Char → Bool
  | [], _ => true
  | _ :: _, [] => false
  | p :: ps, c :: cs => p = c && isPrefixCh ps cs

/-- The lookahead of the rename regex: after the search term there must be
whitespace, a slash, end of text, or any character that is not a letter,
number, underscore or hyphen. -/
def renameLookahead (rest : List Char) : Bool :=
  match rest with
  | [] => true
  | c :: _ => isJsSpace c || c = '/' || !(isTagBodyChar c)

/-- Model of the global regex replacement of the rename path
(`data.replace(tagRegex, (match, prefixGroup, hash, capturedTag) =>
prefixGroup + hash + replace)` in `main.ts`): scan left to right; at a
position preceded by start-of-text or whitespace, a marker followed by the
literal search term (the source regex-escapes the term, so it matches
literally) and passing the lookahead is rewritten to the marker plus the
replacement, inserted verbatim because the callback's return value is not
subject to replacement-pattern interpretation; scanning resumes after the
consumed span. -/
def renameScan (search repl : List Char) : Bool → List Char → List Char
  | _, [] => []
  | atB, c :: rest =>
      if atB && c = '#' && isPrefixCh search rest
          && renameLookahead (rest.drop search.length) then
        '#' :: (repl ++ renameScan search repl false (rest.drop search.length))
      else
        c :: renameScan search repl (isJsSpace c) rest
termination_by _ l => l.length
decreasing_by
  · simp only [List.length_cons, List.length_drop]; omega
  · simp only [List.length_cons]; omega

/-- The body rewrite of `renameTag`: a scan starting at start-of-text. -/
def renameBody (search repl body : List Char) : List Char :=
  renameScan search repl true body

/-- `processSingleTag` from `renameTag` in `main.ts`: strip an optional
marker, rewrite on exact match or nested-descendant match, reattach the
marker. -/
def processSingleTag (search repl t : List Char) : List Char :=
  let hasHash := isPrefixCh ['#'] t
  let raw := if hasHash then t.drop 1 else t
  if raw = search then
    (if hasHash then '#' :: repl else repl)
  else if isPrefixCh (search ++ ['/']) raw then
    (if hasHash then '#' :: (repl ++ raw.drop search.length)
     else repl ++ raw.drop search.length)
  else t

/-- `isPrefixCh` tests exactly for a list-prefix decomposition. -/
theorem isPrefixCh_iff : ∀ (p l : List Char),
    isPrefixCh p l = true ↔ ∃ t, l = p ++ t
  | [], l => by simp [isPrefixCh]
  | p :: ps, [] => by simp [isPrefixCh]
  | p :: ps, c :: cs => by
      simp only [isPrefixCh, Bool.and_eq_true, decide_eq_true_eq,
        isPrefixCh_iff ps cs, List.cons_append]
      constructor
      · rintro ⟨rfl, t, rfl⟩; exact ⟨t, rfl⟩
      · rintro ⟨t, heq⟩
        injection heq with h1 h2
        exact ⟨h1.symm, t, h2⟩

/-- A pattern is a prefix of itself followed by anything. -/
theorem isPrefixCh_append_self (p t : List Char) :
    isPrefixCh p (p ++ t) = true :=
  (isPrefixCh_iff p (p ++ t)).mpr ⟨t, rfl⟩

/-- The scan leaves any marker-free text unchanged. -/
theorem renameScan_no_marker {search repl : List Char} :
    ∀ {l : List Char}, (∀ c ∈ l, c ≠ '#') → ∀ (b : Bool),
      renameScan search repl b l = l := by
  intro l
  induction l with
  | nil => intro _ b; simp [renameScan]
  | cons c rest ih =>
    intro h b
    have hc : c ≠ '#' := h c (by simp)
    rw [renameScan, if_neg (by simp [hc]),
      ih (fun d hd => h d (List.mem_cons_of_mem c hd)) (isJsSpace c)]

/-- Whitespace characters are not tag-body characters. -/
theorem isJsSpace_not_tagBody {c : Char} (h : isJsSpace c = true) :
    isTagBodyChar c = false := by
  simp only [isJsSpace, Bool.or_eq_true, decide_eq_true_eq] at h
  rcases h with ((((rfl | rfl) | rfl) | rfl) | rfl) | rfl <;> decide

/-- The rename regex condition (literal search term plus boundary
lookahead) holds at a candidate tag body exactly when the candidate is the
search term or a nested descendant of it. -/
theorem renameCond_iff {search cand : List Char}
    (hc : ∀ c ∈ cand, isTagBodyChar c = true ∨ c = '/') :
    (isPrefixCh search cand = true
        ∧ renameLookahead (cand.drop search.length) = true)
      ↔ (cand = search ∨ isPrefixCh (search ++ ['/']) cand = true) := by
  constructor
  · rintro ⟨hp, hl⟩
    obtain ⟨t, rfl⟩ := (isPrefixCh_iff search cand).mp hp
    rw [List.drop_left] at hl
    cases t with
    | nil => exact Or.inl (by simp)
    | cons d t' =>
      have hd : isTagBodyChar d = true ∨ d = '/' :=
        hc d (List.mem_append_right search (by simp))
      simp only [renameLookahead, Bool.or_eq_true, decide_eq_true_eq,
        Bool.not_eq_true'] at hl
      rcases hd with hd | rfl
      · rcases hl with (hsp | hsl) | hnb
        · rw [isJsSpace_not_tagBody hsp] at hd; exact absurd hd (by simp)
        · subst hsl; exact absurd hd (by decide)
        · rw [hnb] at hd; exact absurd hd (by simp)
      · refine Or.inr ?_
        have : search ++ '/' :: t' = (search ++ ['/']) ++ t' := by simp
        rw [this]
        exact isPrefixCh_append_self _ _
  · rintro (rfl | hp)
    · refine ⟨(isPrefixCh_iff _ _).mpr ⟨[], (List.append_nil _).symm⟩, ?_⟩
      rw [List.drop_length]
      rfl
    · obtain ⟨t, rfl⟩ := (isPrefixCh_iff _ _).mp hp
      have hass : (search ++ ['/']) ++ t = search ++ '/' :: t := by simp
      rw [hass]
      refine ⟨isPrefixCh_append_self _ _, ?_⟩
      rw [List.drop_left]
      simp [renameLookahead]

/-- A candidate made of tag-body characters and slashes contains no
marker character. -/
theorem cand_no_marker {cand : List Char}
    (hc : ∀ c ∈ cand, isTagBodyChar c = true ∨ c = '/') :
    ∀ c ∈ cand, c ≠ '#' := by
  intro c hmem heq
  subst heq
  rcases hc '#' hmem with h | h
  · exact absurd h (by decide)
  · exact absurd h (by decide)

/-- C2: against a candidate raw tag value (a string of tag-body characters
and slashes), the rename treats the candidate as a match exactly when it
equals the search term or starts with the search term followed by a slash;
the inline body rewrite (`renameBody` at a marker) and the
structured-metadata rewrite (`processSingleTag`) both follow this rule,
substituting only the matched portion. -/
theorem claim2_rename_match_rule (search repl cand : List Char)
    (hc : ∀ c ∈ cand, isTagBodyChar c = true ∨ c = '/') :
    renameBody search repl ('#' :: cand)
      = (if cand = search ∨ isPrefixCh (search ++ ['/']) cand = true
         then '#' :: (repl ++ cand.drop search.length)
         else '#' :: cand)
    ∧ processSingleTag search repl cand
      = (if cand = search ∨ isPrefixCh (search ++ ['/']) cand = true
         then repl ++ cand.drop search.length
         else cand) := by
  have hnm : ∀ c ∈ cand, c ≠ '#' := cand_no_marker hc
  constructor
  · rw [renameBody, renameScan]
    by_cases hm : cand = search ∨ isPrefixCh (search ++ ['/']) cand = true
    · obtain ⟨hp, hl⟩ := (renameCond_iff hc).mpr hm
      rw [if_pos (by simp [hp, hl]), if_pos hm,
        renameScan_no_marker (fun c hcm => hnm c (List.mem_of_mem_drop hcm)) false]
    · rw [if_neg, if_neg hm]
      · rw [renameScan_no_marker hnm (isJsSpace '#')]
      · intro hcond
        simp only [Bool.and_eq_true] at hcond
        exact hm ((renameCond_iff hc).mp ⟨hcond.1.2, hcond.2⟩)
  · have hhash : isPrefixCh ['#'] cand = false := by
      cases cand with
      | nil => rfl
      | cons c cs =>
        have : ¬ ('#' = c) := fun h => hnm c (by simp) h.symm
        simp [isPrefixCh, this]
    rw [processSingleTag]
    simp only [hhash, Bool.false_eq_true, if_false]
    by_cases he : cand = search
    · subst he
      rw [if_pos rfl, if_pos (Or.inl rfl), List.drop_length, List.append_nil]
    · rw [if_neg he]
      by_cases hp : isPrefixCh (search ++ ['/']) cand = true
      · rw [if_pos hp, if_pos (Or.inr hp)]
      · rw [if_neg hp, if_neg (by rintro (h | h); exact he h; exact hp h)]

/-- C2 (witness): the match rule applied at search term `"tag"` and
candidate `"tag/child"`; the condition is decided positively and the
rename substitutes only the matched portion. -/
theorem claim2_witness :
    renameBody "tag".toList "fixed".toList ('#' :: "tag/child".toList)
      = (if "tag/child".toList = "tag".toList
            ∨ isPrefixCh ("tag".toList ++ ['/']) "tag/child".toList = true
         then '#' :: ("fixed".toList ++ "tag/child".toList.drop "tag".toList.length)
         else '#' :: "tag/child".toList)
    ∧ processSingleTag "tag".toList "fixed".toList "tag/child".toList
      = (if "tag/child".toList = "tag".toList
            ∨ isPrefixCh ("tag".toList ++ ['/']) "tag/child".toList = true
         then "fixed".toList ++ "tag/child".toList.drop "tag".toList.length
         else "tag/child".toList) :=
  claim2_rename_match_rule _ _ _ (by decide)

/-- C3: renaming a nested descendant `search ++ slash ++ suffix`
substitutes only the matched search-term portion and preserves the suffix
verbatim, both in structured metadata (`processSingleTag`) and in the body
rewrite at an inline marker. -/
theorem claim3_rename_nested_suffix (search repl suffix : List Char)
    (h1 : isPrefixCh ['#'] search = false) (h2 : '#' ∉ suffix) :
    processSingleTag search repl (search ++ '/' :: suffix)
        = repl ++ '/' :: suffix
    ∧ renameBody search repl ('#' :: (search ++ '/' :: suffix))
        = '#' :: (repl ++ '/' :: suffix) := by
  constructor
  · have hhash : isPrefixCh ['#'] (search ++ '/' :: suffix) = false := by
      cases search with
      | nil => rfl
      | cons s ss =>
        have hs : ¬ ('#' = s) := by
          intro h
          rw [← h] at h1
          simp [isPrefixCh] at h1
        simp [isPrefixCh, hs]
    have hne : search ++ '/' :: suffix ≠ search := by
      intro heq
      have := congrArg List.length heq
      simp at this
    have hp : isPrefixCh (search ++ ['/']) (search ++ '/' :: suffix) = true := by
      have : search ++ '/' :: suffix = (search ++ ['/']) ++ suffix := by simp
      rw [this]
      exact isPrefixCh_append_self _ _
    rw [processSingleTag]
    simp only [hhash, Bool.false_eq_true, if_false, if_neg hne, hp, if_true,
      List.drop_left]
  · rw [renameBody, renameScan,
      if_pos (by simp [isPrefixCh_append_self, List.drop_left, renameLookahead]),
      List.drop_left]
    rw [renameScan_no_marker (fun c hcm hceq => ?_) false]
    rcases List.mem_cons.mp hcm with rfl | hcm
    · exact absurd hceq (by decide)
    · exact h2 (hceq ▸ hcm)

/-- C3 (witness): the nested-rename theorem applied at search `"old"`,
replacement `"new"` and suffix `"sub/leaf"`, yielding `"new/sub/leaf"`. -/
theorem claim3_witness :
    processSingleTag "old".toList "new".toList
        ("old".toList ++ '/' :: "sub/leaf".toList)
      = "new".toList ++ '/' :: "sub/leaf".toList
    ∧ renameBody "old".toList "new".toList
        ('#' :: ("old".toList ++ '/' :: "sub/leaf".toList))
      = '#' :: ("new".toList ++ '/' :: "sub/leaf".toList) :=
  claim3_rename_nested_suffix _ _ _ (by decide) (by decide)

/-- C10: the replacement string reaches the body verbatim for every
replacement value, because the substitution is produced by a callback
returning plain concatenation (so replacement-pattern metacharacters are
not interpreted), and the search term is regex-escaped so it matches only
literally (a search term containing a regex metacharacter such as a dot
does not act as a wildcard). -/
theorem claim10_replacement_literal (search repl : List Char) :
    renameBody search repl ('#' :: search) = '#' :: repl
    ∧ renameBody "a.b".toList repl ('#' :: "aXb".toList)
        = '#' :: "aXb".toList := by
  constructor
  · have hp : isPrefixCh search search = true :=
      (isPrefixCh_iff search search).mpr ⟨[], (List.append_nil _).symm⟩
    have hl : renameLookahead (search.drop search.length) = true := by
      rw [List.drop_length]; rfl
    rw [renameBody, renameScan, if_pos (by simp [hp, hl, renameLookahead]),
      List.drop_length]
    simp [renameScan]
  · rw [renameBody, renameScan, if_neg (by decide)]
    rw [renameScan_no_marker (by decide) (isJsSpace '#')]

/-- A frontmatter tag field: absent, a single string, or an array of
strings — the three shapes `renameTag` and `processFile` handle. -/
inductive FmVal where
  | absent
  | str (s : List Char)
  | arr (ss : List (List Char))
deriving DecidableEq, Repr

/-- A document: the `tags` frontmatter field, its legacy `tag` alias, and
the raw text body. -/
structure Doc where
  tags : FmVal
  tag : FmVal
  body : List Char
deriving DecidableEq, Repr

/-- Applying `processSingleTag` to one frontmatter field of `renameTag`:
a string value is rewritten directly, an array element-wise, an absent
field is skipped. -/
def renameFmVal (search repl : List Char) : FmVal → FmVal
  | FmVal.absent => FmVal.absent
  | FmVal.str s => FmVal.str (processSingleTag search repl s)
  | FmVal.arr ss => FmVal.arr (ss.map (processSingleTag search repl))

/-- The per-document step of `renameTag`: frontmatter fields first, then
the body regex replacement. -/
def renameDoc (search repl : List Char) (d : Doc) : Doc :=
  { tags := renameFmVal search repl d.tags
    tag := renameFmVal search repl d.tag
    body := renameBody search repl d.body }

/-- Model of JavaScript marker stripping
(`oldTag.startsWith(marker) ? oldTag.substring(1) : oldTag`). -/
def stripHash (t : List Char) : List Char :=
  if isPrefixCh ['#'] t then t.drop 1 else t

/-- `renameTag` from `main.ts` at the collection level: strip optional
markers from both inputs; if either is then empty, reject (returning the
collection untouched and the flag `false` standing for the early return
that only emits an advisory notice); otherwise rewrite every document and
return the flag `true`. -/
def renameTagRun (oldTag newTag : List Char) (files : List Doc) :
    List Doc × Bool :=
  let search := stripHash oldTag
  let replace := stripHash newTag
  if search = [] ∨ replace = [] then (files, false)
  else (files.map (renameDoc search replace), true)

/-- C8: a rename request whose old or new tag is empty after marker
stripping is rejected before touching any document — the collection is
returned byte-identical and the operation reports the early return. -/
theorem claim8_rename_validation (oldTag newTag : List Char) (files : List Doc)
    (h : stripHash oldTag = [] ∨ stripHash newTag = []) :
    renameTagRun oldTag newTag files = (files, false) := by
  rw [renameTagRun, if_pos h]

/-- C8 (witness): the validation theorem applied at old tag `"#"` (empty
after stripping), new tag `"new"` and a one-document collection. -/
theorem claim8_witness :
    renameTagRun "#".toList "new".toList
        [⟨FmVal.str "#x".toList, FmVal.absent, "#x body".toList⟩]
      = ([⟨FmVal.str "#x".toList, FmVal.absent, "#x body".toList⟩], false) :=
  claim8_rename_validation _ _ _ (Or.inl (by decide))

/-- The per-document outcome of `processFile` as seen by the driver
`runConversion`: success with a rewritten document, or a thrown
exception. -/
def stepOk (step : Doc → Except (List Char) Doc) (d : Doc) : Bool :=
  match step d with
  | Except.ok _ => true
  | Except.error _ => false

/-- `runConversion` from `main.ts`: iterate the documents in order; a
per-document exception is caught at the loop body (the document is left
as it was and not counted), a success replaces the document and increments
`processedCount`; the pair returned is (resulting collection, processed
count). -/
def runConversion (step : Doc → Except (List Char) Doc) :
    List Doc → List Doc × Nat
  | [] => ([], 0)
  | f :: fs =>
      let rest := runConversion step fs
      match step f with
      | Except.ok f' => (f' :: rest.1, rest.2 + 1)
      | Except.error _ => (f :: rest.1, rest.2)

/-- C9: a per-document exception during bulk normalization is caught at
the per-document boundary — every remaining document is still processed
(the resulting collection covers all input documents) and the reported
count equals exactly the number of documents processed without
exception. -/
theorem claim9_runConversion_counts (step : Doc → Except (List Char) Doc)
    (files : List Doc) :
    (runConversion step files).2 = (files.filter (stepOk step)).length
    ∧ (runConversion step files).1.length = files.length := by
  induction files with
  | nil => exact ⟨rfl, rfl⟩
  | cons f fs ih =>
    rw [runConversion]
    cases hs : step f with
    | ok f' => simp [hs, List.filter_cons, stepOk, ih.1, ih.2]
    | error e => simp [hs, List.filter_cons, stepOk, ih.1, ih.2]

/-- The affected-tags counter of `TagManagerModal.updateStats`: fold over
the distinct tags, stripping the marker and counting those whose
converted value differs. -/
def updateStatsAffected (cfg : TagSettings) (uniqueTags : List (List Char)) : Nat :=
  uniqueTags.foldl
    (fun acc tag =>
      if convertTagContent cfg (tag.drop 1) ≠ tag.drop 1 then acc + 1 else acc)
    0

/-- The total counter of `TagManagerModal.updateStats`. -/
def updateStatsTotal (uniqueTags : List (List Char)) : Nat :=
  uniqueTags.length

/-- Counting via the fold equals counting via a predicate, shifted by the
accumulator. -/
theorem foldl_count_shift (cfg : TagSettings) :
    ∀ (l : List (List Char)) (n : Nat),
      l.foldl
          (fun acc tag =>
            if convertTagContent cfg (tag.drop 1) ≠ tag.drop 1 then acc + 1
            else acc) n
        = n + l.countP
            (fun tag => decide (convertTagContent cfg (tag.drop 1) ≠ tag.drop 1))
  | [], n => by simp
  | t :: ts, n => by
      rw [List.foldl_cons, List.countP_cons]
      by_cases h : convertTagContent cfg (t.drop 1) ≠ t.drop 1
      · rw [if_pos h, foldl_count_shift cfg ts (n + 1)]
        simp only [decide_eq_true h, if_true]
        omega
      · rw [if_neg h, foldl_count_shift cfg ts n]
        simp only [decide_eq_false h, Bool.false_eq_true, if_false]
        omega

/-- C6: the dashboard report is a pure pair of counts — the total equals
the number of distinct tags, and the would-change count equals exactly the
number of distinct tags whose marker-stripped value differs from its
`convertTagContent` image under the current configuration; nothing is
mutated (the model computes the counts from the tag list alone). -/
theorem claim6_updateStats_counts (cfg : TagSettings)
    (uniqueTags : List (List Char)) :
    updateStatsTotal uniqueTags = uniqueTags.length
    ∧ updateStatsAffected cfg uniqueTags
      = (uniqueTags.filter
          (fun tag =>
            decide (convertTagContent cfg (tag.drop 1) ≠ tag.drop 1))).length := by
  refine ⟨rfl, ?_⟩
  rw [updateStatsAffected, foldl_count_shift cfg uniqueTags 0,
    List.countP_eq_length_filter]
  omega

/-- A character of the modelled collation fragment: the characters a tag
key of this plugin is built from — the marker, the nesting slash, the two
separator characters, ASCII digits and ASCII letters. -/
def isAsciiTagChar (c : Char) : Bool :=
  c = '#' || c = '/' || c = '_' || c = '-' ||
    ('0' ≤ c ∧ c ≤ '9') || ('a' ≤ c ∧ c ≤ 'z') || ('A' ≤ c ∧ c ≤ 'Z')

/-- Primary collation weight per the CLDR root collation (the collation
behind default `localeCompare`), on the modelled fragment: connector
punctuation (`_`) precedes dashes (`-`), which precede the remaining
punctuation (`/` before `#`), all punctuation precedes digits, and digits
precede letters, which are case-folded at this level.  Characters outside
the fragment get large code-point-based weights and are not claimed
faithful.  All weights are positive so that 0 can act as a level
separator. -/
def primaryW (c : Char) : Nat :=
  if c = '_' then 1
  else if c = '-' then 2
  else if c = '/' then 3
  else if c = '#' then 4
  else if '0' ≤ c ∧ c ≤ '9' then 10 + (c.toNat - '0'.toNat)
  else if 'a' ≤ c ∧ c ≤ 'z' then 40 + (c.toNat - 'a'.toNat)
  else if 'A' ≤ c ∧ c ≤ 'Z' then 40 + (c.toNat - 'A'.toNat)
  else 1000 + c.toNat

/-- Tertiary (case) collation weight: lowercase before uppercase. -/
def tertW (c : Char) : Nat :=
  if 'A' ≤ c ∧ c ≤ 'Z' then 1 else 0

/-- Collation key modelling `String.prototype.localeCompare` on the CLDR
root collation, faithful on strings of `isAsciiTagChar` characters: all
primary weights, then a level separator, then all case weights — so two
strings differing only in letter case compare equal at the primary level
and are ordered lowercase-first at the case level, exactly as the default
locale-aware comparison the source's `sort((a, b) => a.localeCompare(b))`
uses. -/
def localeKey (s : List Char) : List Nat :=
  s.map primaryW ++ 0 :: s.map tertW

/-- The locale-aware order the tag listing is actually sorted by. -/
def localeLe (a b : List Char) : Prop :=
  localeKey a ≤ localeKey b

instance localeLe_decidable : DecidableRel localeLe := fun a b =>
  inferInstanceAs (Decidable (localeKey a ≤ localeKey b))

instance localeLe_total : IsTotal (List Char) localeLe :=
  ⟨fun a b => le_total (localeKey a) (localeKey b)⟩

instance localeLe_trans : IsTrans (List Char) localeLe :=
  ⟨fun _ _ _ h1 h2 => le_trans h1 h2⟩

/-- Modelled from the spec: the order the spec asserts for the listing —
plain lexicographic comparison of Unicode code points. -/
def codePointLe (a b : List Char) : Prop :=
  a.map Char.toNat ≤ b.map Char.toNat

instance codePointLe_decidable : DecidableRel codePointLe := fun a b =>
  inferInstanceAs (Decidable (a.map Char.toNat ≤ b.map Char.toNat))

/-- The sorted tag listing of `generateTagList`:
`Object.keys(tags).sort((a, b) => a.localeCompare(b))`, modelled as a
stable sort by the locale order (JavaScript's comparator sort is stable). -/
def sortedTagList (tags : List (List Char)) : List (List Char) :=
  List.insertionSort localeLe tags

/-- The listing body of `generateTagList`: one dash-prefixed line per
sorted tag. -/
def tagListLines (tags : List (List Char)) : List (List Char) :=
  (sortedTagList tags).map (fun t => '-' :: ' ' :: t)

/-- C7 (counterexample): the claim that the listing is ordered
lexicographically by Unicode code point fails for the tag collection
`{"#B", "#a"}`: the source's locale-aware sort puts `"#a"` first, yet in
code-point order `"#a"` does not precede `"#B"` (the code point of `a`
exceeds that of `B`). -/
theorem claim7_counterexample :
    sortedTagList ["#B".toList, "#a".toList] = ["#a".toList, "#B".toList]
    ∧ ¬ codePointLe "#a".toList "#B".toList := by
  constructor
  · decide
  · decide

/-- C7 (amended): for every nonempty, duplicate-free collection of known
tags over the tag-character fragment on which the collation model is
faithful, the generated listing has one line per distinct tag
(deduplicated, since the sorted listing is a permutation of the distinct
input and stays duplicate-free), ordered by the locale-aware collation of
`localeCompare` (case-insensitive primary level with punctuation before
digits before letters, lowercase-first case level) rather than by raw
code point. -/
theorem claim7_tagList_sorted (tags : List (List Char))
    (hne : tags ≠ []) (hnd : tags.Nodup)
    (hch : ∀ t ∈ tags, ∀ c ∈ t, isAsciiTagChar c = true) :
    (sortedTagList tags).Perm tags
    ∧ (sortedTagList tags).Nodup
    ∧ List.Sorted localeLe (sortedTagList tags)
    ∧ (tagListLines tags).length = tags.length := by
  refine ⟨List.perm_insertionSort localeLe tags, ?_, ?_, ?_⟩
  · exact (List.perm_insertionSort localeLe tags).nodup_iff.mpr hnd
  · exact List.sorted_insertionSort localeLe tags
  · rw [tagListLines, List.length_map]
    exact (List.perm_insertionSort localeLe tags).length_eq

/-- C7 (witness): the amended listing theorem applied at the concrete
collection `["#B", "#a"]`. -/
theorem claim7_witness :
    (sortedTagList ["#B".toList, "#a".toList]).Perm ["#B".toList, "#a".toList]
    ∧ (sortedTagList ["#B".toList, "#a".toList]).Nodup
    ∧ List.Sorted localeLe (sortedTagList ["#B".toList, "#a".toList])
    ∧ (tagListLines ["#B".toList, "#a".toList]).length
        = (["#B".toList, "#a".toList] : List (List Char)).length :=
  claim7_tagList_sorted _ (by decide) (by decide) (by decide)

end BulkTagManager
